import Mathlib

/-!
Shallow embedding of the valuation and historical-aggregation engine of
the bagholder-oracle repository (src/app.py).

The valuation engine is the per-holding loop of the `index` route
(app.py lines 128-154) together with the display-currency heuristic
(lines 161-168); the historical aggregator is `get_historical_data`
(lines 69-107).  Python floats are modelled as rationals; a Python dict
is modelled as an association list with insert-or-update semantics
(`dictInsert`) and first-match lookup (`dictGet`), which preserves both
the key order (first insertion) and the value semantics (last write
wins) of CPython dicts.  Calendar dates are modelled as naturals
(ordering is all the code uses).  A value whose comparison or float
conversion raises a TypeError (a non-numeric price slipping through the
feed) is modelled by the `PriceVal.nonNum` constructor; the per-holding
try/except of app.py line 134/152 is modelled by the corresponding
branch of `stepHolding`.
-/

namespace Bagholder

/-- Lookup in an association list, first match wins (CPython dict read). -/
def dictGet {κ β : Type} [DecidableEq κ] (k : κ) : List (κ × β) → Option β
  | [] => none
  | (k', v) :: rest => if k' = k then some v else dictGet k rest

/-- Insert-or-update in an association list (CPython dict write): an
existing key keeps its position and gets the new value, a new key is
appended. -/
def dictInsert {κ β : Type} [DecidableEq κ] (k : κ) (v : β) : List (κ × β) → List (κ × β)
  | [] => [(k, v)]
  | (k', w) :: rest => if k' = k then (k', v) :: rest else (k', w) :: dictInsert k v rest

/-- A current-price value as delivered by the quote feed: Python None
(`undef`), a numeric price (`num`), or a non-numeric value whose
comparison with 0 raises a TypeError (`nonNum`). -/
inductive PriceVal : Type
  | undef : PriceVal
  | num : ℚ → PriceVal
  | nonNum : PriceVal
deriving DecidableEq

/-- One entry of the `stock_data` map built by `get_stock_data`
(app.py lines 40-67): current price, currency code and display name. -/
structure Quote : Type where
  current_price : PriceVal
  currency : String
  short_name : String
deriving DecidableEq

/-- One validated holding row of `portfolio_df` (app.py lines 22-38
guarantee the numeric fields). -/
structure Holding : Type where
  ticker : String
  quantity : ℚ
  cost_basis : ℚ
deriving DecidableEq

/-- One entry of `portfolio_details` (app.py line 151 resp. 152).  The
`calc_error` flag marks the records built by the except branch of line
152, which the code marks by the " (Calc Error)" display-name suffix. -/
structure Record : Type where
  ticker : String
  short_name : String
  quantity : ℚ
  avg_purchase_price : ℚ
  cost_basis : ℚ
  current_price : ℚ
  current_value : ℚ
  gain_loss : ℚ
  gain_loss_percent : ℚ
  currency : String
  is_rsu : Bool
  calc_error : Bool
deriving DecidableEq

/-- The nine running totals of app.py lines 114-116. -/
structure Totals : Type where
  total_value : ℚ
  total_cost_basis : ℚ
  total_gain_loss : ℚ
  rsu_value : ℚ
  rsu_cost_basis : ℚ
  rsu_gain_loss : ℚ
  non_rsu_value : ℚ
  non_rsu_cost_basis : ℚ
  non_rsu_gain_loss : ℚ
deriving DecidableEq

/-- All totals start at 0.0 (app.py lines 114-116). -/
def Totals.start : Totals := ⟨0, 0, 0, 0, 0, 0, 0, 0, 0⟩

/-- RSU_TICKERS of app.py line 13. -/
def rsuTickers : List String := ["META"]

/-- Accumulation of app.py lines 148-150: current value and gain/loss
into the global totals, and cost basis, current value and gain/loss
into the matching category totals.  The global cost basis is NOT added
here: app.py adds it earlier, at line 138. -/
def accumulate (t : Totals) (is_rsu : Bool) (cb cv gl : ℚ) : Totals :=
  let t' := { t with total_value := t.total_value + cv,
                     total_gain_loss := t.total_gain_loss + gl }
  if is_rsu then
    { t' with rsu_cost_basis := t'.rsu_cost_basis + cb,
              rsu_value := t'.rsu_value + cv,
              rsu_gain_loss := t'.rsu_gain_loss + gl }
  else
    { t' with non_rsu_cost_basis := t'.non_rsu_cost_basis + cb,
              non_rsu_value := t'.non_rsu_value + cv,
              non_rsu_gain_loss := t'.non_rsu_gain_loss + gl }

/-- One iteration of the per-holding loop of app.py lines 128-152,
mapping the accumulator (totals, emitted records) and a holding to the
new accumulator.  The control flow mirrors the source: the
avg-purchase-price and the global cost-basis accumulation (lines
136-138) happen before the price test of line 139; a `nonNum` price
makes the comparison of line 139 raise, landing in the except branch of
line 152 (record appended with zeroed fields and a " (Calc Error)"
name) after the global cost basis was already incremented. -/
def stepHolding (quotes : String → Option Quote) (acc : Totals × List Record)
    (h : Holding) : Totals × List Record :=
  let is_rsu := rsuTickers.contains h.ticker
  let avg := if h.quantity ≠ 0 then h.cost_basis / h.quantity else 0
  let t1 := { acc.1 with total_cost_basis := acc.1.total_cost_basis + h.cost_basis }
  match quotes h.ticker with
  | none =>
      let cv : ℚ := 0
      let gl := 0 - h.cost_basis
      let glp : ℚ := if h.cost_basis ≠ 0 then -100 else 0
      (accumulate t1 is_rsu h.cost_basis cv gl,
       acc.2 ++ [⟨h.ticker, h.ticker ++ " (Not Found)", h.quantity, avg, h.cost_basis,
                  0, cv, gl, glp, "N/A", is_rsu, false⟩])
  | some q =>
      match q.current_price with
      | PriceVal.nonNum =>
          (t1, acc.2 ++ [⟨h.ticker, h.ticker ++ " (Calc Error)", h.quantity, 0,
                          h.cost_basis, 0, 0, 0, 0, "N/A", is_rsu, true⟩])
      | PriceVal.num p =>
          if 0 < p then
            let cv := h.quantity * p
            let gl := cv - h.cost_basis
            let glp := if h.cost_basis ≠ 0 then gl / h.cost_basis * 100 else 0
            (accumulate t1 is_rsu h.cost_basis cv gl,
             acc.2 ++ [⟨h.ticker, q.short_name, h.quantity, avg, h.cost_basis,
                        p, cv, gl, glp, q.currency, is_rsu, false⟩])
          else
            let cv : ℚ := 0
            let gl := 0 - h.cost_basis
            let glp : ℚ := if h.cost_basis ≠ 0 then -100 else 0
            (accumulate t1 is_rsu h.cost_basis cv gl,
             acc.2 ++ [⟨h.ticker, q.short_name, h.quantity, avg, h.cost_basis,
                        0, cv, gl, glp, q.currency, is_rsu, false⟩])
      | PriceVal.undef =>
          let cv : ℚ := 0
          let gl := 0 - h.cost_basis
          let glp : ℚ := if h.cost_basis ≠ 0 then -100 else 0
          (accumulate t1 is_rsu h.cost_basis cv gl,
           acc.2 ++ [⟨h.ticker, q.short_name, h.quantity, avg, h.cost_basis,
                      0, cv, gl, glp, q.currency, is_rsu, false⟩])

/-- The whole valuation pass: fold the per-holding loop over the
holdings (app.py lines 128-152), then sort the records ascending by
ticker (app.py line 154). -/
def runValuation (quotes : String → Option Quote) (holdings : List Holding) :
    Totals × List Record :=
  let res := holdings.foldl (stepHolding quotes) (Totals.start, [])
  (res.1, res.2.mergeSort (fun a b => a.ticker ≤ b.ticker))

/-- The record emitted for one holding by one iteration of the loop of
app.py lines 128-152: the record construction of line 151 (normal
branches) or line 152 (except branch).  The record depends only on the
holding and the quote feed, never on the running totals. -/
def emitRecord (quotes : String → Option Quote) (h : Holding) : Record :=
  let is_rsu := rsuTickers.contains h.ticker
  let avg := if h.quantity ≠ 0 then h.cost_basis / h.quantity else 0
  match quotes h.ticker with
  | none =>
      ⟨h.ticker, h.ticker ++ " (Not Found)", h.quantity, avg, h.cost_basis,
       0, 0, 0 - h.cost_basis, if h.cost_basis ≠ 0 then -100 else 0, "N/A", is_rsu, false⟩
  | some q =>
      match q.current_price with
      | PriceVal.nonNum =>
          ⟨h.ticker, h.ticker ++ " (Calc Error)", h.quantity, 0, h.cost_basis,
           0, 0, 0, 0, "N/A", is_rsu, true⟩
      | PriceVal.num p =>
          if 0 < p then
            let cv := h.quantity * p
            let gl := cv - h.cost_basis
            ⟨h.ticker, q.short_name, h.quantity, avg, h.cost_basis, p, cv, gl,
             if h.cost_basis ≠ 0 then gl / h.cost_basis * 100 else 0,
             q.currency, is_rsu, false⟩
          else
            ⟨h.ticker, q.short_name, h.quantity, avg, h.cost_basis,
             0, 0, 0 - h.cost_basis, if h.cost_basis ≠ 0 then -100 else 0,
             q.currency, is_rsu, false⟩
      | PriceVal.undef =>
          ⟨h.ticker, q.short_name, h.quantity, avg, h.cost_basis,
           0, 0, 0 - h.cost_basis, if h.cost_basis ≠ 0 then -100 else 0,
           q.currency, is_rsu, false⟩

/-- The contribution of one emitted record to the nine running totals:
current value and gain/loss go to the global totals unconditionally for
non-errored records (they are zero on errored ones), the global cost
basis is added for every record (app.py line 138 runs before the fault
site of line 139), and the category totals receive the three amounts
only for non-errored records (lines 149-150 are skipped by the except
branch). -/
def applyDelta (t : Totals) (r : Record) : Totals :=
  { total_value := t.total_value + r.current_value,
    total_cost_basis := t.total_cost_basis + r.cost_basis,
    total_gain_loss := t.total_gain_loss + r.gain_loss,
    rsu_value := t.rsu_value + (if r.is_rsu && !r.calc_error then r.current_value else 0),
    rsu_cost_basis := t.rsu_cost_basis + (if r.is_rsu && !r.calc_error then r.cost_basis else 0),
    rsu_gain_loss := t.rsu_gain_loss + (if r.is_rsu && !r.calc_error then r.gain_loss else 0),
    non_rsu_value := t.non_rsu_value + (if !r.is_rsu && !r.calc_error then r.current_value else 0),
    non_rsu_cost_basis :=
      t.non_rsu_cost_basis + (if !r.is_rsu && !r.calc_error then r.cost_basis else 0),
    non_rsu_gain_loss :=
      t.non_rsu_gain_loss + (if !r.is_rsu && !r.calc_error then r.gain_loss else 0) }

/-- The list comprehension of app.py line 163: currencies of records
with a known currency and a positive current value. -/
def validCurrencies (details : List Record) : List String :=
  (details.filter (fun p => p.currency ≠ "N/A" ∧ 0 < p.current_value)).map
    (fun p => p.currency)

/-- Python max(xs, key=f): the first element of xs whose key is maximal,
d when xs is empty (in the source the ValueError of an empty max is
caught and yields the default currency). -/
def pyMaxBy (f : String → ℕ) (d : String) : List String → String
  | [] => d
  | x :: xs => xs.foldl (fun best c => if f best < f c then c else best) x

/-- Display-currency heuristic of app.py lines 161-168.  The argument
setOrder stands for the iteration order of the Python set
`set(valid_currencies)` of line 165, which is hash-based and not the
encounter order; theorems constrain it to be a permutation of the
distinct valid currencies. -/
def primaryCurrency (details : List Record) (setOrder : List String) : String :=
  if details = [] then "USD"
  else
    let valid := validCurrencies details
    if valid ≠ [] then pyMaxBy (fun c => valid.count c) "USD" setOrder
    else
      match details.find? (fun p => p.currency ≠ "N/A") with
      | some p => p.currency
      | none => "USD"

/-- Forward-filled close of one ticker at date d (app.py line 90
combined with the frame lookup of line 97): the last close recorded at
a date at most d, none when the ticker has no close on or before d
(pandas ffill leaves leading NaN).  The feed series are date-ascending
(the yfinance frame index), so the last matching list element is the
latest such close. -/
def ffillAt (s : List (ℕ × ℚ)) (d : ℕ) : Option ℚ :=
  ((s.filter (fun p => p.1 ≤ d)).getLast?).map Prod.snd

/-- app.py line 99: daily_total_values[date] = daily_total_values.get(date, 0) + value. -/
def addToDaily (m : List (ℕ × ℚ)) (d : ℕ) (v : ℚ) : List (ℕ × ℚ) :=
  dictInsert d ((dictGet d m).getD 0 + v) m

/-- app.py lines 97-99 for one ticker: walk the frame index, and for
each date with a forward-filled close (pd.notna) add close times
quantity into the daily totals. -/
def processTicker (m0 : List (ℕ × ℚ)) (q : ℚ) (s : List (ℕ × ℚ))
    (index : List ℕ) : List (ℕ × ℚ) :=
  index.foldl
    (fun m d =>
      match ffillAt s d with
      | some v => addToDaily m d (v * q)
      | none => m)
    m0

/-- app.py line 91: portfolio_df.set_index(Ticker)[Quantity].to_dict().
Duplicate tickers: the key keeps its first position, the value is the
last row written. -/
def dictOfQ (holdings : List Holding) : List (String × ℚ) :=
  holdings.foldl (fun m h => dictInsert h.ticker h.quantity m) []

/-- app.py lines 93-100: fold every held ticker; tickers absent from
the frame columns are skipped (logged as a data gap in the source). -/
def dailyTotals (index : List ℕ) (series : List (String × List (ℕ × ℚ)))
    (qmap : List (String × ℚ)) : List (ℕ × ℚ) :=
  qmap.foldl
    (fun m tq =>
      match dictGet tq.1 series with
      | some s => processTicker m tq.2 s index
      | none => m)
    []

/-- The date index of the downloaded frame: the union of the dates of
all series, ascending and without duplicates. -/
def unionDates (series : List (String × List (ℕ × ℚ))) : List ℕ :=
  ((series.map (fun ts => ts.2.map Prod.fst)).flatten).dedup.mergeSort (fun a b => a ≤ b)

/-- The chart_data dictionary of app.py line 105. -/
structure ChartData : Type where
  dates : List ℕ
  values : List ℚ
  gains : List ℚ
deriving DecidableEq

/-- get_historical_data of app.py lines 69-107, from the point where
the market data is in hand: None for empty tickers or an empty
portfolio (line 71), None for an empty frame (line 76), the per-ticker
accumulation of lines 90-100, None when no date yielded a value (line
101), else dates sorted ascending with values and gains (lines
103-106); gains subtract the constant current total cost basis of line
92. -/
def getHistoricalData (tickers : List String) (holdings : List Holding)
    (series : List (String × List (ℕ × ℚ))) : Option ChartData :=
  if tickers = [] ∨ holdings = [] then none
  else
    let index := unionDates series
    if index = [] then none
    else
      let qmap := dictOfQ holdings
      let totalCB := (holdings.map Holding.cost_basis).sum
      let daily := dailyTotals index series qmap
      if daily = [] then none
      else
        let sortedDates := (daily.map Prod.fst).mergeSort (fun a b => a ≤ b)
        let values := sortedDates.map (fun d => (dictGet d daily).getD 0)
        some ⟨sortedDates, values, values.map (fun v => v - totalCB)⟩

/-- Quote feed of the AAPL example of the spec (section 8). -/
def aaplQuotes : String → Option Quote :=
  fun t => if t = "AAPL" then some ⟨PriceVal.num 150, "USD", "Apple Inc"⟩ else none

/-- Holding of the AAPL example of the spec (section 8). -/
def aaplHolding : Holding := ⟨"AAPL", 10, 1000⟩

/-- A feed with no quotes at all. -/
def noQuotes : String → Option Quote := fun _ => none

/-- Holding of the XYZ unavailable-quote example of the spec (section 8). -/
def xyzHolding : Holding := ⟨"XYZ", 5, 500⟩

/-- A feed whose quote for ticker A carries a non-numeric price, the
realizable per-holding fault of app.py line 139. -/
def calcErrQuotes : String → Option Quote :=
  fun t => if t = "A" then some ⟨PriceVal.nonNum, "USD", "A Inc"⟩ else none

/-- A single holding whose quote faults. -/
def calcErrHoldings : List Holding := [⟨"A", 1, 100⟩]

/-- Holdings of the two-ticker historical example of the spec (section 8). -/
def histHoldings : List Holding := [⟨"A", 2, 7⟩, ⟨"B", 1, 3⟩]

/-- Series of the two-ticker historical example: A has closes on both
dates, B only on the first, so B is forward-filled at the second. -/
def histSeries : List (String × List (ℕ × ℚ)) := [("A", [(1, 10), (2, 12)]), ("B", [(1, 5)])]

/-- Two rows with the same ticker (claim C10). -/
def dupHoldings : List Holding := [⟨"A", 2, 10⟩, ⟨"A", 3, 10⟩]

/-- History for the duplicated ticker: one close, equal to the current
quote price. -/
def dupSeries : List (String × List (ℕ × ℚ)) := [("A", [(1, 5)])]

/-- Current quote for the duplicated ticker, price equal to the last
historical close. -/
def dupQuotes : String → Option Quote :=
  fun t => if t = "A" then some ⟨PriceVal.num 5, "USD", "A Co"⟩ else none

/-- A record with currency EUR and positive current value. -/
def eurRecord : Record := ⟨"AAA", "AAA Co", 1, 1, 1, 1, 1, 0, 0, "EUR", false, false⟩

/-- A record with currency GBP and positive current value. -/
def gbpRecord : Record := ⟨"BBB", "BBB Co", 1, 1, 1, 1, 1, 0, 0, "GBP", false, false⟩

/-- Record list whose two qualifying currencies are tied at one
occurrence each; EUR is encountered first. -/
def tieDetails : List Record := [eurRecord, gbpRecord]

/-- The value stored for date d in the daily-totals dict, 0 when the
date is absent (the .get(date, 0) default of app.py line 99). -/
def dval (m : List (ℕ × ℚ)) (d : ℕ) : ℚ := (dictGet d m).getD 0

/-- Contribution of one ticker series to the total of date d: close
times quantity for the forward-filled close, 0 when the ticker has no
close on or before d (the pd.notna guard of app.py line 99). -/
def contrib (s : List (ℕ × ℚ)) (q : ℚ) (d : ℕ) : ℚ :=
  match ffillAt s d with
  | some v => v * q
  | none => 0

/-- The per-date total of spec section 4.2 step 3: the sum over held
tickers that have historical data of quantity times forward-filled
close at the date; tickers absent from the feed contribute nothing to
the sum.  The quantity of a ticker is the one of the per-ticker
quantity map (last row wins for duplicated tickers). -/
def histValueAt (hs : List Holding) (series : List (String × List (ℕ × ℚ)))
    (d : ℕ) : ℚ :=
  ((dictOfQ hs).map (fun tq =>
    match dictGet tq.1 series with
    | some s => contrib s tq.2 d
    | none => 0)).sum

/-! Helper lemmas about the dict model. -/

theorem dictGet_dictInsert {κ β : Type} [DecidableEq κ] (k k' : κ) (v : β)
    (m : List (κ × β)) :
    dictGet k (dictInsert k' v m) = if k' = k then some v else dictGet k m := by
  induction m with
  | nil => simp [dictGet, dictInsert]
  | cons hd tl ih =>
      obtain ⟨a, b⟩ := hd
      by_cases hak : a = k'
      · subst hak
        by_cases hkk : a = k <;> simp [dictGet, dictInsert, hkk]
      · by_cases hk : a = k
        · subst hk
          simp only [dictInsert, if_neg hak, dictGet, if_pos rfl]
          have : ¬ k' = a := fun hc => hak hc.symm
          simp [this]
        · simp [dictGet, dictInsert, hak, hk, ih]

theorem keys_dictInsert {κ β : Type} [DecidableEq κ] (k : κ) (v : β)
    (m : List (κ × β)) :
    (dictInsert k v m).map Prod.fst =
      if k ∈ m.map Prod.fst then m.map Prod.fst else m.map Prod.fst ++ [k] := by
  induction m with
  | nil => simp [dictInsert]
  | cons hd tl ih =>
      obtain ⟨a, b⟩ := hd
      by_cases hak : a = k
      · subst hak
        simp [dictInsert]
      · have hka : ¬ k = a := fun hc => hak hc.symm
        simp only [dictInsert, if_neg hak, List.map_cons, ih]
        by_cases hmem : k ∈ tl.map Prod.fst <;> simp [hmem, hka]

theorem mem_keys_dictInsert {κ β : Type} [DecidableEq κ] (a k : κ) (v : β)
    (m : List (κ × β)) :
    a ∈ (dictInsert k v m).map Prod.fst ↔ a = k ∨ a ∈ m.map Prod.fst := by
  rw [keys_dictInsert]
  by_cases hmem : k ∈ m.map Prod.fst
  · simp only [if_pos hmem]
    constructor
    · exact fun hx => Or.inr hx
    · rintro (rfl | hx)
      · exact hmem
      · exact hx
  · simp [if_neg hmem, List.mem_append]
    tauto

theorem nodup_keys_dictInsert {κ β : Type} [DecidableEq κ] (k : κ) (v : β)
    (m : List (κ × β)) (hm : (m.map Prod.fst).Nodup) :
    ((dictInsert k v m).map Prod.fst).Nodup := by
  rw [keys_dictInsert]
  by_cases hmem : k ∈ m.map Prod.fst
  · simpa [if_pos hmem] using hm
  · simp only [if_neg hmem]
    refine List.Nodup.append hm (List.nodup_singleton k) ?_
    intro a ha hka
    rw [List.mem_singleton] at hka
    subst hka
    exact hmem ha

theorem dictGet_isSome_iff {κ β : Type} [DecidableEq κ] (k : κ)
    (m : List (κ × β)) :
    (dictGet k m).isSome ↔ k ∈ m.map Prod.fst := by
  induction m with
  | nil => simp [dictGet]
  | cons hd tl ih =>
      obtain ⟨a, b⟩ := hd
      by_cases hk : a = k
      · subst hk
        simp [dictGet]
      · have hka : ¬ k = a := fun hc => hk hc.symm
        simp [dictGet, hk, hka, ih]

theorem dictGet_mem_of_nodup {κ β : Type} [DecidableEq κ] (k : κ) (v : β)
    (m : List (κ × β)) (hm : (m.map Prod.fst).Nodup) (hmem : (k, v) ∈ m) :
    dictGet k m = some v := by
  induction m with
  | nil => simp at hmem
  | cons hd tl ih =>
      obtain ⟨a, b⟩ := hd
      simp only [List.map_cons, List.nodup_cons] at hm
      rcases List.mem_cons.mp hmem with heq | htl
      · injection heq with h1 h2
        subst h1
        subst h2
        simp [dictGet]
      · have hak : ¬ a = k := by
          rintro rfl
          exact hm.1 (List.mem_map.mpr ⟨(a, v), htl, rfl⟩)
        simp [dictGet, hak, ih hm.2 htl]

/-! Helper lemmas about the valuation fold. -/

theorem stepHolding_eq (quotes : String → Option Quote) (t : Totals)
    (rs : List Record) (h : Holding) :
    stepHolding quotes (t, rs) h =
      (applyDelta t (emitRecord quotes h), rs ++ [emitRecord quotes h]) := by
  cases hq : quotes h.ticker with
  | none =>
      by_cases hc : h.ticker ∈ rsuTickers <;>
        simp [stepHolding, emitRecord, applyDelta, accumulate, hq, hc,
          Totals.mk.injEq] <;> constructor <;> ring
  | some q =>
      cases hp : q.current_price with
      | nonNum =>
          by_cases hc : h.ticker ∈ rsuTickers <;>
            simp [stepHolding, emitRecord, applyDelta, accumulate, hq, hp, hc,
              Totals.mk.injEq] <;> constructor <;> ring
      | undef =>
          by_cases hc : h.ticker ∈ rsuTickers <;>
            simp [stepHolding, emitRecord, applyDelta, accumulate, hq, hp, hc,
              Totals.mk.injEq] <;> constructor <;> ring
      | num p =>
          by_cases hpos : 0 < p <;>
            by_cases hc : h.ticker ∈ rsuTickers <;>
              simp [stepHolding, emitRecord, applyDelta, accumulate, hq, hp, hc,
                hpos, Totals.mk.injEq] <;> constructor <;> ring

theorem foldl_stepHolding (quotes : String → Option Quote) (hs : List Holding)
    (t0 : Totals) (rs0 : List Record) :
    hs.foldl (stepHolding quotes) (t0, rs0) =
      ((hs.map (emitRecord quotes)).foldl applyDelta t0,
       rs0 ++ hs.map (emitRecord quotes)) := by
  induction hs generalizing t0 rs0 with
  | nil => simp
  | cons h tl ih =>
      simp only [List.foldl_cons, List.map_cons]
      rw [stepHolding_eq, ih]
      simp

theorem foldl_applyDelta_proj (proj : Totals → ℚ) (delta : Record → ℚ)
    (hstep : ∀ t r, proj (applyDelta t r) = proj t + delta r)
    (t0 : Totals) (rs : List Record) :
    proj (rs.foldl applyDelta t0) = proj t0 + (rs.map delta).sum := by
  induction rs generalizing t0 with
  | nil => simp
  | cons r tl ih =>
      simp only [List.foldl_cons, List.map_cons, List.sum_cons]
      rw [ih, hstep]
      ring

theorem sum_map_if_eq_filter {α : Type} (l : List α) (p : α → Bool) (f : α → ℚ) :
    (l.map (fun x => if p x then f x else 0)).sum = ((l.filter p).map f).sum := by
  induction l with
  | nil => simp
  | cons x tl ih =>
      by_cases hp : p x = true <;> simp [hp, ih]

theorem sum_filter_split {α : Type} (l : List α) (p : α → Bool) (f : α → ℚ) :
    ((l.filter p).map f).sum + ((l.filter (fun x => !(p x))).map f).sum =
      (l.map f).sum := by
  induction l with
  | nil => simp
  | cons x tl ih =>
      cases hp : p x
      · simp [List.filter_cons, hp]
        linarith [ih]
      · simp [List.filter_cons, hp]
        linarith [ih]

theorem sum_add_pointwise (l : List Record) (f g k : Record → ℚ)
    (h : ∀ r ∈ l, f r + g r = k r) :
    (l.map f).sum + (l.map g).sum = (l.map k).sum := by
  induction l with
  | nil => simp
  | cons r tl ih =>
      simp only [List.map_cons, List.sum_cons]
      rw [← ih (fun s hs => h s (List.mem_cons_of_mem r hs)),
        ← h r (List.mem_cons_self r tl)]
      ring

theorem emitRecord_error_shape (quotes : String → Option Quote) (h : Holding)
    (he : (emitRecord quotes h).calc_error = true) :
    emitRecord quotes h =
      ⟨h.ticker, h.ticker ++ " (Calc Error)", h.quantity, 0, h.cost_basis,
       0, 0, 0, 0, "N/A", rsuTickers.contains h.ticker, true⟩ := by
  cases hq : quotes h.ticker with
  | none => simp [emitRecord, hq] at he
  | some q =>
      cases hp : q.current_price with
      | nonNum => simp [emitRecord, hq, hp]
      | undef => simp [emitRecord, hq, hp] at he
      | num p => by_cases hpos : 0 < p <;> simp [emitRecord, hq, hp, hpos] at he

theorem emitRecord_cost_basis (quotes : String → Option Quote) (h : Holding) :
    (emitRecord quotes h).cost_basis = h.cost_basis := by
  cases hq : quotes h.ticker with
  | none => simp [emitRecord, hq]
  | some q =>
      cases hp : q.current_price with
      | nonNum => simp [emitRecord, hq, hp]
      | undef => simp [emitRecord, hq, hp]
      | num p => by_cases hpos : 0 < p <;> simp [emitRecord, hq, hp, hpos]

theorem runValuation_perm (quotes : String → Option Quote) (hs : List Holding) :
    ((runValuation quotes hs).2).Perm (hs.map (emitRecord quotes)) := by
  show (((hs.foldl (stepHolding quotes) (Totals.start, [])).2).mergeSort
      (fun a b => a.ticker ≤ b.ticker)).Perm (hs.map (emitRecord quotes))
  rw [foldl_stepHolding]
  exact List.mergeSort_perm _ _

theorem runValuation_fst (quotes : String → Option Quote) (hs : List Holding) :
    (runValuation quotes hs).1 =
      (hs.map (emitRecord quotes)).foldl applyDelta Totals.start := by
  show (hs.foldl (stepHolding quotes) (Totals.start, [])).1 = _
  rw [foldl_stepHolding]

theorem runValuation_total_value (quotes : String → Option Quote) (hs : List Holding) :
    (runValuation quotes hs).1.total_value =
      ((hs.map (emitRecord quotes)).map Record.current_value).sum := by
  rw [runValuation_fst]
  have := foldl_applyDelta_proj Totals.total_value Record.current_value
    (fun t r => rfl) Totals.start (hs.map (emitRecord quotes))
  simpa [Totals.start] using this

theorem runValuation_total_cost_basis (quotes : String → Option Quote) (hs : List Holding) :
    (runValuation quotes hs).1.total_cost_basis =
      ((hs.map (emitRecord quotes)).map Record.cost_basis).sum := by
  rw [runValuation_fst]
  have := foldl_applyDelta_proj Totals.total_cost_basis Record.cost_basis
    (fun t r => rfl) Totals.start (hs.map (emitRecord quotes))
  simpa [Totals.start] using this

theorem runValuation_total_gain_loss (quotes : String → Option Quote) (hs : List Holding) :
    (runValuation quotes hs).1.total_gain_loss =
      ((hs.map (emitRecord quotes)).map Record.gain_loss).sum := by
  rw [runValuation_fst]
  have := foldl_applyDelta_proj Totals.total_gain_loss Record.gain_loss
    (fun t r => rfl) Totals.start (hs.map (emitRecord quotes))
  simpa [Totals.start] using this

theorem runValuation_rsu_value (quotes : String → Option Quote) (hs : List Holding) :
    (runValuation quotes hs).1.rsu_value =
      ((hs.map (emitRecord quotes)).map
        (fun r => if r.is_rsu && !r.calc_error then r.current_value else 0)).sum := by
  rw [runValuation_fst]
  have := foldl_applyDelta_proj Totals.rsu_value
    (fun r => if r.is_rsu && !r.calc_error then r.current_value else 0)
    (fun t r => rfl) Totals.start (hs.map (emitRecord quotes))
  simpa [Totals.start] using this

theorem runValuation_rsu_cost_basis (quotes : String → Option Quote) (hs : List Holding) :
    (runValuation quotes hs).1.rsu_cost_basis =
      ((hs.map (emitRecord quotes)).map
        (fun r => if r.is_rsu && !r.calc_error then r.cost_basis else 0)).sum := by
  rw [runValuation_fst]
  have := foldl_applyDelta_proj Totals.rsu_cost_basis
    (fun r => if r.is_rsu && !r.calc_error then r.cost_basis else 0)
    (fun t r => rfl) Totals.start (hs.map (emitRecord quotes))
  simpa [Totals.start] using this

theorem runValuation_rsu_gain_loss (quotes : String → Option Quote) (hs : List Holding) :
    (runValuation quotes hs).1.rsu_gain_loss =
      ((hs.map (emitRecord quotes)).map
        (fun r => if r.is_rsu && !r.calc_error then r.gain_loss else 0)).sum := by
  rw [runValuation_fst]
  have := foldl_applyDelta_proj Totals.rsu_gain_loss
    (fun r => if r.is_rsu && !r.calc_error then r.gain_loss else 0)
    (fun t r => rfl) Totals.start (hs.map (emitRecord quotes))
  simpa [Totals.start] using this

theorem runValuation_non_rsu_value (quotes : String → Option Quote) (hs : List Holding) :
    (runValuation quotes hs).1.non_rsu_value =
      ((hs.map (emitRecord quotes)).map
        (fun r => if !r.is_rsu && !r.calc_error then r.current_value else 0)).sum := by
  rw [runValuation_fst]
  have := foldl_applyDelta_proj Totals.non_rsu_value
    (fun r => if !r.is_rsu && !r.calc_error then r.current_value else 0)
    (fun t r => rfl) Totals.start (hs.map (emitRecord quotes))
  simpa [Totals.start] using this

theorem runValuation_non_rsu_cost_basis (quotes : String → Option Quote) (hs : List Holding) :
    (runValuation quotes hs).1.non_rsu_cost_basis =
      ((hs.map (emitRecord quotes)).map
        (fun r => if !r.is_rsu && !r.calc_error then r.cost_basis else 0)).sum := by
  rw [runValuation_fst]
  have := foldl_applyDelta_proj Totals.non_rsu_cost_basis
    (fun r => if !r.is_rsu && !r.calc_error then r.cost_basis else 0)
    (fun t r => rfl) Totals.start (hs.map (emitRecord quotes))
  simpa [Totals.start] using this

theorem runValuation_non_rsu_gain_loss (quotes : String → Option Quote) (hs : List Holding) :
    (runValuation quotes hs).1.non_rsu_gain_loss =
      ((hs.map (emitRecord quotes)).map
        (fun r => if !r.is_rsu && !r.calc_error then r.gain_loss else 0)).sum := by
  rw [runValuation_fst]
  have := foldl_applyDelta_proj Totals.non_rsu_gain_loss
    (fun r => if !r.is_rsu && !r.calc_error then r.gain_loss else 0)
    (fun t r => rfl) Totals.start (hs.map (emitRecord quotes))
  simpa [Totals.start] using this

/-- C1: for every holding whose ticker has a quote with a defined
current price greater than 0, the emitted ValuationRecord satisfies
current_value = quantity times current_price, gain_loss =
current_value minus cost_basis, and gain_loss_percent = gain_loss over
cost_basis times 100 when the cost basis is nonzero and 0 when it is
zero (app.py lines 139-143). -/
theorem c1_valid_quote_record (quotes : String → Option Quote)
    (acc : Totals × List Record) (h : Holding) (q : Quote) (p : ℚ)
    (hq : quotes h.ticker = some q) (hp : q.current_price = PriceVal.num p)
    (hpos : 0 < p) :
    ∃ r : Record, (stepHolding quotes acc h).2 = acc.2 ++ [r] ∧
      r.quantity = h.quantity ∧ r.cost_basis = h.cost_basis ∧
      r.current_price = p ∧
      r.current_value = r.quantity * r.current_price ∧
      r.gain_loss = r.current_value - r.cost_basis ∧
      r.gain_loss_percent =
        (if r.cost_basis ≠ 0 then r.gain_loss / r.cost_basis * 100 else 0) := by
  obtain ⟨t, rs⟩ := acc
  rw [stepHolding_eq]
  refine ⟨emitRecord quotes h, rfl, ?_⟩
  simp [emitRecord, hq, hp, hpos]

/-- Witness for C1 at the AAPL example of the spec: quantity 10, cost
basis 1000, price 150. -/
theorem c1_valid_quote_record_witness :
    aaplQuotes aaplHolding.ticker = some ⟨PriceVal.num 150, "USD", "Apple Inc"⟩ ∧
    (⟨PriceVal.num 150, "USD", "Apple Inc"⟩ : Quote).current_price = PriceVal.num 150 ∧
    (0 : ℚ) < 150 ∧
    (∃ r : Record,
      (stepHolding aaplQuotes (Totals.start, []) aaplHolding).2 =
        (Totals.start, ([] : List Record)).2 ++ [r] ∧
      r.quantity = aaplHolding.quantity ∧ r.cost_basis = aaplHolding.cost_basis ∧
      r.current_price = 150 ∧
      r.current_value = r.quantity * r.current_price ∧
      r.gain_loss = r.current_value - r.cost_basis ∧
      r.gain_loss_percent =
        (if r.cost_basis ≠ 0 then r.gain_loss / r.cost_basis * 100 else 0)) :=
  ⟨by decide, rfl, by norm_num,
   c1_valid_quote_record aaplQuotes (Totals.start, []) aaplHolding
     ⟨PriceVal.num 150, "USD", "Apple Inc"⟩ 150 (by decide) rfl (by norm_num)⟩

/-- C2: for every holding whose quote is unavailable (ticker absent
from the quote map, price undefined, or price at most 0) the emitted
ValuationRecord has current_price 0, current_value 0, gain_loss equal
to minus the cost basis, and gain_loss_percent -100 when the cost basis
is nonzero and 0 when it is zero; the numeric fields are the same in
all three unavailability cases (app.py lines 144-147). -/
theorem c2_unavailable_quote_record (quotes : String → Option Quote)
    (acc : Totals × List Record) (h : Holding)
    (hu : quotes h.ticker = none ∨
          ∃ q, quotes h.ticker = some q ∧
            (q.current_price = PriceVal.undef ∨
             ∃ x, q.current_price = PriceVal.num x ∧ x ≤ 0)) :
    ∃ r : Record, (stepHolding quotes acc h).2 = acc.2 ++ [r] ∧
      r.current_price = 0 ∧ r.current_value = 0 ∧
      r.gain_loss = -h.cost_basis ∧
      r.gain_loss_percent = (if h.cost_basis ≠ 0 then (-100 : ℚ) else 0) := by
  obtain ⟨t, rs⟩ := acc
  rw [stepHolding_eq]
  refine ⟨emitRecord quotes h, rfl, ?_⟩
  rcases hu with hn | ⟨q, hq, hu⟩
  · simp [emitRecord, hn]
  · rcases hu with hundef | ⟨x, hx, hle⟩
    · simp [emitRecord, hq, hundef]
    · have hnpos : ¬ 0 < x := not_lt.mpr hle
      simp [emitRecord, hq, hx, hnpos]

/-- Witness for C2 at the XYZ example of the spec: quantity 5, cost
basis 500, no quote at all. -/
theorem c2_unavailable_quote_record_witness :
    (noQuotes xyzHolding.ticker = none ∨
     ∃ q, noQuotes xyzHolding.ticker = some q ∧
       (q.current_price = PriceVal.undef ∨
        ∃ x, q.current_price = PriceVal.num x ∧ x ≤ 0)) ∧
    (∃ r : Record,
      (stepHolding noQuotes (Totals.start, []) xyzHolding).2 =
        (Totals.start, ([] : List Record)).2 ++ [r] ∧
      r.current_price = 0 ∧ r.current_value = 0 ∧
      r.gain_loss = -xyzHolding.cost_basis ∧
      r.gain_loss_percent = (if xyzHolding.cost_basis ≠ 0 then (-100 : ℚ) else 0)) :=
  ⟨Or.inl rfl,
   c2_unavailable_quote_record noQuotes (Totals.start, []) xyzHolding (Or.inl rfl)⟩

/-- Counterexample to C3 as stated.  One holding (ticker A, quantity 1,
cost basis 100) whose quote carries a non-numeric price: the comparison
of app.py line 139 raises after line 138 has already added the cost
basis to the global total, so the single record is computation-errored,
yet total_cost_basis is 100 while the sum of cost_basis over the
records not flagged as errored is 0. -/
theorem c3_counterexample :
    ((runValuation calcErrQuotes calcErrHoldings).2.map
      (fun r => r.calc_error)) = [true] ∧
    (runValuation calcErrQuotes calcErrHoldings).1.total_cost_basis = 100 ∧
    ((((runValuation calcErrQuotes calcErrHoldings).2.filter
        (fun r => !r.calc_error)).map Record.cost_basis).sum) = 0 ∧
    (100 : ℚ) ≠ 0 := by
  have hemit : calcErrHoldings.map (emitRecord calcErrQuotes) =
      [⟨"A", "A (Calc Error)", 1, 0, 100, 0, 0, 0, 0, "N/A", false, true⟩] := by
    simp [calcErrHoldings, emitRecord, calcErrQuotes, rsuTickers]
  have hout : (runValuation calcErrQuotes calcErrHoldings).2 =
      [⟨"A", "A (Calc Error)", 1, 0, 100, 0, 0, 0, 0, "N/A", false, true⟩] := by
    have hp := runValuation_perm calcErrQuotes calcErrHoldings
    rw [hemit] at hp
    exact List.perm_singleton.mp hp
  refine ⟨by rw [hout]; rfl, ?_, by rw [hout]; simp, by norm_num⟩
  rw [runValuation_total_cost_basis, hemit]
  norm_num

/-- C3 as amended: a per-holding computation fault still emits the
record of that holding with derived fields zeroed and a display name
flagged with " (Calc Error)", and processing continues (one record per
holding); the faulted record contributes nothing to total_value and
total_gain_loss, which equal the sums over the non-errored records; but
total_cost_basis includes the cost basis of every record, errored ones
included, because app.py adds the cost basis (line 138) before the
fault site (line 139). -/
theorem c3_amended_fault_isolation (quotes : String → Option Quote)
    (hs : List Holding) :
    (runValuation quotes hs).2.length = hs.length ∧
    (∀ r ∈ (runValuation quotes hs).2, r.calc_error = true →
      r.short_name = r.ticker ++ " (Calc Error)" ∧ r.current_value = 0 ∧
      r.gain_loss = 0 ∧ r.gain_loss_percent = 0 ∧ r.avg_purchase_price = 0 ∧
      r.current_price = 0) ∧
    (runValuation quotes hs).1.total_value =
      (((runValuation quotes hs).2.filter (fun r => !r.calc_error)).map
        Record.current_value).sum ∧
    (runValuation quotes hs).1.total_gain_loss =
      (((runValuation quotes hs).2.filter (fun r => !r.calc_error)).map
        Record.gain_loss).sum ∧
    (runValuation quotes hs).1.total_cost_basis =
      ((runValuation quotes hs).2.map Record.cost_basis).sum := by
  have hperm := runValuation_perm quotes hs
  refine ⟨?_, ?_, ?_, ?_, ?_⟩
  · rw [hperm.length_eq, List.length_map]
  · intro r hr he
    have hr' : r ∈ hs.map (emitRecord quotes) := hperm.mem_iff.mp hr
    obtain ⟨h, _, rfl⟩ := List.mem_map.mp hr'
    have hshape := emitRecord_error_shape quotes h he
    rw [hshape]
    exact ⟨rfl, rfl, rfl, rfl, rfl, rfl⟩
  · rw [runValuation_total_value]
    have hzero : (((hs.map (emitRecord quotes)).filter (fun r => r.calc_error)).map
        Record.current_value).sum = 0 := by
      apply List.sum_eq_zero
      intro x hx
      obtain ⟨r, hrmem, rfl⟩ := List.mem_map.mp hx
      have hr := List.mem_filter.mp hrmem
      obtain ⟨h, _, rfl⟩ := List.mem_map.mp hr.1
      rw [emitRecord_error_shape quotes h hr.2]
    have hsplit := sum_filter_split (hs.map (emitRecord quotes))
      (fun r => r.calc_error) Record.current_value
    have hfilter : (((runValuation quotes hs).2.filter (fun r => !r.calc_error)).map
        Record.current_value).sum =
        (((hs.map (emitRecord quotes)).filter (fun r => !r.calc_error)).map
          Record.current_value).sum :=
      ((hperm.filter (fun r => !r.calc_error)).map Record.current_value).sum_eq
    rw [hfilter]
    have := hsplit
    rw [hzero] at this
    simpa using this.symm
  · rw [runValuation_total_gain_loss]
    have hzero : (((hs.map (emitRecord quotes)).filter (fun r => r.calc_error)).map
        Record.gain_loss).sum = 0 := by
      apply List.sum_eq_zero
      intro x hx
      obtain ⟨r, hrmem, rfl⟩ := List.mem_map.mp hx
      have hr := List.mem_filter.mp hrmem
      obtain ⟨h, _, rfl⟩ := List.mem_map.mp hr.1
      rw [emitRecord_error_shape quotes h hr.2]
    have hsplit := sum_filter_split (hs.map (emitRecord quotes))
      (fun r => r.calc_error) Record.gain_loss
    have hfilter : (((runValuation quotes hs).2.filter (fun r => !r.calc_error)).map
        Record.gain_loss).sum =
        (((hs.map (emitRecord quotes)).filter (fun r => !r.calc_error)).map
          Record.gain_loss).sum :=
      ((hperm.filter (fun r => !r.calc_error)).map Record.gain_loss).sum_eq
    rw [hfilter]
    have := hsplit
    rw [hzero] at this
    simpa using this.symm
  · rw [runValuation_total_cost_basis]
    exact ((hperm.map Record.cost_basis).sum_eq).symm

/-- Counterexample to C4 as stated.  With one holding whose quote has a
non-numeric price, the global total_cost_basis is 100 (added at app.py
line 138, before the fault) while the RSU and non-RSU cost-basis
subtotals (added at lines 149-150, skipped by the except branch) sum to
0, so the category subtotals do not partition the global summary. -/
theorem c4_counterexample :
    (runValuation calcErrQuotes calcErrHoldings).1.rsu_cost_basis +
      (runValuation calcErrQuotes calcErrHoldings).1.non_rsu_cost_basis = 0 ∧
    (runValuation calcErrQuotes calcErrHoldings).1.total_cost_basis = 100 ∧
    (0 : ℚ) ≠ 100 := by
  have hemit : calcErrHoldings.map (emitRecord calcErrQuotes) =
      [⟨"A", "A (Calc Error)", 1, 0, 100, 0, 0, 0, 0, "N/A", false, true⟩] := by
    simp [calcErrHoldings, emitRecord, calcErrQuotes, rsuTickers]
  refine ⟨?_, ?_, by norm_num⟩
  · rw [runValuation_rsu_cost_basis, runValuation_non_rsu_cost_basis, hemit]
    norm_num
  · rw [runValuation_total_cost_basis, hemit]
    norm_num

/-- C4 as amended: the RSU and non-RSU subtotals partition the global
summary for current value and gain/loss on every input; for cost basis
they partition the global total only up to the cost bases of
computation-errored records: the global total includes those cost bases
(app.py line 138) while neither category does (lines 149-150 are
skipped by the except branch).  When no record is errored all three
partitions hold. -/
theorem c4_amended_partition (quotes : String → Option Quote) (hs : List Holding) :
    (runValuation quotes hs).1.rsu_value + (runValuation quotes hs).1.non_rsu_value =
      (runValuation quotes hs).1.total_value ∧
    (runValuation quotes hs).1.rsu_gain_loss +
        (runValuation quotes hs).1.non_rsu_gain_loss =
      (runValuation quotes hs).1.total_gain_loss ∧
    (runValuation quotes hs).1.rsu_cost_basis +
        (runValuation quotes hs).1.non_rsu_cost_basis +
        (((runValuation quotes hs).2.filter (fun r => r.calc_error)).map
          Record.cost_basis).sum =
      (runValuation quotes hs).1.total_cost_basis ∧
    ((runValuation quotes hs).2.filter (fun r => r.calc_error) = [] →
      (runValuation quotes hs).1.rsu_cost_basis +
          (runValuation quotes hs).1.non_rsu_cost_basis =
        (runValuation quotes hs).1.total_cost_basis) := by
  have hperm := runValuation_perm quotes hs
  have herrzero : ∀ r ∈ hs.map (emitRecord quotes), r.calc_error = true →
      r.current_value = 0 ∧ r.gain_loss = 0 := by
    intro r hr he
    obtain ⟨h, _, rfl⟩ := List.mem_map.mp hr
    have hshape := emitRecord_error_shape quotes h he
    rw [hshape]
    exact ⟨rfl, rfl⟩
  have hval : (runValuation quotes hs).1.rsu_value +
      (runValuation quotes hs).1.non_rsu_value =
      (runValuation quotes hs).1.total_value := by
    rw [runValuation_rsu_value, runValuation_non_rsu_value, runValuation_total_value]
    apply sum_add_pointwise
    intro r hr
    cases he : r.calc_error
    · cases hrsu : r.is_rsu <;> simp [he, hrsu]
    · have := (herrzero r hr he).1
      simp [he, this]
  have hgl : (runValuation quotes hs).1.rsu_gain_loss +
      (runValuation quotes hs).1.non_rsu_gain_loss =
      (runValuation quotes hs).1.total_gain_loss := by
    rw [runValuation_rsu_gain_loss, runValuation_non_rsu_gain_loss,
      runValuation_total_gain_loss]
    apply sum_add_pointwise
    intro r hr
    cases he : r.calc_error
    · cases hrsu : r.is_rsu <;> simp [he, hrsu]
    · have := (herrzero r hr he).2
      simp [he, this]
  have hcb : (runValuation quotes hs).1.rsu_cost_basis +
      (runValuation quotes hs).1.non_rsu_cost_basis +
      (((runValuation quotes hs).2.filter (fun r => r.calc_error)).map
        Record.cost_basis).sum =
      (runValuation quotes hs).1.total_cost_basis := by
    rw [runValuation_rsu_cost_basis, runValuation_non_rsu_cost_basis,
      runValuation_total_cost_basis]
    have hpoint : ((hs.map (emitRecord quotes)).map
        (fun r => if r.is_rsu && !r.calc_error then r.cost_basis else 0)).sum +
        ((hs.map (emitRecord quotes)).map
          (fun r => if !r.is_rsu && !r.calc_error then r.cost_basis else 0)).sum =
        ((hs.map (emitRecord quotes)).map
          (fun r => if !r.calc_error then r.cost_basis else 0)).sum := by
      apply sum_add_pointwise
      intro r hr
      cases he : r.calc_error <;> cases hrsu : r.is_rsu <;> simp [he, hrsu]
    rw [hpoint]
    have hfe : (((runValuation quotes hs).2.filter (fun r => r.calc_error)).map
        Record.cost_basis).sum =
        (((hs.map (emitRecord quotes)).filter (fun r => r.calc_error)).map
          Record.cost_basis).sum :=
      ((hperm.filter (fun r => r.calc_error)).map Record.cost_basis).sum_eq
    rw [hfe, sum_map_if_eq_filter]
    have hsplit := sum_filter_split (hs.map (emitRecord quotes))
      (fun r => !r.calc_error) Record.cost_basis
    calc ((List.filter (fun r => !r.calc_error) (hs.map (emitRecord quotes))).map
            Record.cost_basis).sum +
          ((List.filter (fun r => r.calc_error) (hs.map (emitRecord quotes))).map
            Record.cost_basis).sum
        = ((List.filter (fun r => !r.calc_error) (hs.map (emitRecord quotes))).map
            Record.cost_basis).sum +
          ((List.filter (fun r => !(!r.calc_error)) (hs.map (emitRecord quotes))).map
            Record.cost_basis).sum := by
          simp only [Bool.not_not]
      _ = ((hs.map (emitRecord quotes)).map Record.cost_basis).sum := hsplit
  refine ⟨hval, hgl, hcb, ?_⟩
  intro hnil
  have := hcb
  rw [hnil] at this
  simpa using this

/-- C9: for every quote feed and holdings input, the list of emitted
ValuationRecords is sorted ascending by ticker string (app.py line
154), regardless of the input order of the holdings. -/
theorem c9_records_sorted_by_ticker (quotes : String → Option Quote)
    (hs : List Holding) :
    ((runValuation quotes hs).2).Pairwise (fun a b => a.ticker ≤ b.ticker) := by
  show (((hs.foldl (stepHolding quotes) (Totals.start, [])).2).mergeSort
      (fun a b => a.ticker ≤ b.ticker)).Pairwise (fun a b => a.ticker ≤ b.ticker)
  refine List.Pairwise.imp ?_ (List.sorted_mergeSort ?_ ?_ _)
  · intro a b hab
    exact of_decide_eq_true hab
  · intro a b c hab hbc
    exact decide_eq_true (le_trans (of_decide_eq_true hab) (of_decide_eq_true hbc))
  · intro a b
    rcases le_total a.ticker b.ticker with hle | hle
    · exact Bool.or_eq_true_iff.mpr (Or.inl (decide_eq_true hle))
    · exact Bool.or_eq_true_iff.mpr (Or.inr (decide_eq_true hle))

/-! Helper lemmas about the historical aggregation. -/

theorem dval_addToDaily (m : List (ℕ × ℚ)) (d : ℕ) (v : ℚ) (d' : ℕ) :
    dval (addToDaily m d v) d' = dval m d' + if d = d' then v else 0 := by
  unfold dval addToDaily
  rw [dictGet_dictInsert]
  by_cases hdd : d = d'
  · subst hdd
    simp
  · simp [hdd]

theorem mem_keys_addToDaily (m : List (ℕ × ℚ)) (d : ℕ) (v : ℚ) (d' : ℕ) :
    d' ∈ (addToDaily m d v).map Prod.fst ↔ d' = d ∨ d' ∈ m.map Prod.fst :=
  mem_keys_dictInsert d' d _ m

theorem nodup_keys_addToDaily (m : List (ℕ × ℚ)) (d : ℕ) (v : ℚ)
    (hm : (m.map Prod.fst).Nodup) :
    ((addToDaily m d v).map Prod.fst).Nodup :=
  nodup_keys_dictInsert d _ m hm

theorem dval_processTicker (q : ℚ) (s : List (ℕ × ℚ)) (index : List ℕ)
    (hnd : index.Nodup) (m : List (ℕ × ℚ)) (d : ℕ) :
    dval (processTicker m q s index) d =
      dval m d + if d ∈ index then contrib s q d else 0 := by
  induction index generalizing m with
  | nil => simp [processTicker]
  | cons d0 rest ih =>
      have hnd' := List.nodup_cons.mp hnd
      have hstep : processTicker m q s (d0 :: rest) =
          processTicker
            (match ffillAt s d0 with
             | some v => addToDaily m d0 (v * q)
             | none => m) q s rest := rfl
      rw [hstep, ih hnd'.2]
      by_cases hd : d = d0
      · subst hd
        have hnr : d ∉ rest := hnd'.1
        cases hf : ffillAt s d
        · simp [hf, hnr, contrib]
        · simp [hf, hnr, dval_addToDaily, contrib]
      · have hd0d : ¬ d0 = d := fun hc => hd hc.symm
        cases hf : ffillAt s d0
        · simp [hd, List.mem_cons]
        · rw [dval_addToDaily]
          simp [hd0d, hd, List.mem_cons]

theorem mem_keys_processTicker (q : ℚ) (s : List (ℕ × ℚ)) (index : List ℕ)
    (m : List (ℕ × ℚ)) (d : ℕ) :
    d ∈ (processTicker m q s index).map Prod.fst ↔
      d ∈ m.map Prod.fst ∨ (d ∈ index ∧ (ffillAt s d).isSome) := by
  induction index generalizing m with
  | nil => simp [processTicker]
  | cons d0 rest ih =>
      cases hf : ffillAt s d0 with
      | none =>
          have hstep : processTicker m q s (d0 :: rest) = processTicker m q s rest := by
            show processTicker
              (match ffillAt s d0 with
               | some v => addToDaily m d0 (v * q)
               | none => m) q s rest = processTicker m q s rest
            rw [hf]
          rw [hstep, ih]
          by_cases hd : d = d0
          · subst hd
            simp [hf]
          · simp [hd, List.mem_cons]
      | some v =>
          have hstep : processTicker m q s (d0 :: rest) =
              processTicker (addToDaily m d0 (v * q)) q s rest := by
            show processTicker
              (match ffillAt s d0 with
               | some v => addToDaily m d0 (v * q)
               | none => m) q s rest =
              processTicker (addToDaily m d0 (v * q)) q s rest
            rw [hf]
          rw [hstep, ih, mem_keys_addToDaily]
          by_cases hd : d = d0
          · subst hd
            simp [hf]
          · simp [hd, List.mem_cons]

theorem nodup_keys_processTicker (q : ℚ) (s : List (ℕ × ℚ)) (index : List ℕ)
    (m : List (ℕ × ℚ)) (hm : (m.map Prod.fst).Nodup) :
    ((processTicker m q s index).map Prod.fst).Nodup := by
  induction index generalizing m with
  | nil => exact hm
  | cons d0 rest ih =>
      have hstep : processTicker m q s (d0 :: rest) =
          processTicker
            (match ffillAt s d0 with
             | some v => addToDaily m d0 (v * q)
             | none => m) q s rest := rfl
      rw [hstep]
      apply ih
      cases hf : ffillAt s d0
      · exact hm
      · exact nodup_keys_addToDaily m d0 _ hm

theorem dval_dailyTotals_fold (index : List ℕ) (series : List (String × List (ℕ × ℚ)))
    (hnd : index.Nodup) (d : ℕ) (hd : d ∈ index) (qmap : List (String × ℚ))
    (m : List (ℕ × ℚ)) :
    dval (qmap.foldl
      (fun m tq =>
        match dictGet tq.1 series with
        | some s => processTicker m tq.2 s index
        | none => m) m) d =
      dval m d + (qmap.map (fun tq =>
        match dictGet tq.1 series with
        | some s => contrib s tq.2 d
        | none => 0)).sum := by
  induction qmap generalizing m with
  | nil => simp
  | cons tq rest ih =>
      rw [List.foldl_cons, List.map_cons, List.sum_cons, ih]
      cases hg : dictGet tq.1 series
      · simp
      · rw [dval_processTicker _ _ _ hnd, if_pos hd]
        ring

theorem dval_dailyTotals (index : List ℕ) (series : List (String × List (ℕ × ℚ)))
    (qmap : List (String × ℚ)) (d : ℕ) (hnd : index.Nodup) (hd : d ∈ index) :
    dval (dailyTotals index series qmap) d =
      (qmap.map (fun tq =>
        match dictGet tq.1 series with
        | some s => contrib s tq.2 d
        | none => 0)).sum := by
  have h := dval_dailyTotals_fold index series hnd d hd qmap []
  simpa [dailyTotals, dval, dictGet] using h

theorem mem_keys_dailyTotals_fold (index : List ℕ)
    (series : List (String × List (ℕ × ℚ))) (qmap : List (String × ℚ))
    (m : List (ℕ × ℚ)) (d : ℕ) :
    d ∈ ((qmap.foldl
      (fun m tq =>
        match dictGet tq.1 series with
        | some s => processTicker m tq.2 s index
        | none => m) m).map Prod.fst) ↔
      d ∈ m.map Prod.fst ∨
        ∃ tq ∈ qmap, ∃ s, dictGet tq.1 series = some s ∧
          d ∈ index ∧ (ffillAt s d).isSome := by
  induction qmap generalizing m with
  | nil => simp
  | cons tq rest ih =>
      rw [List.foldl_cons, ih, List.exists_mem_cons_iff]
      cases hg : dictGet tq.1 series
      · simp [hg]
      · rw [mem_keys_processTicker]
        simp [hg]
        tauto

theorem mem_keys_dailyTotals (index : List ℕ)
    (series : List (String × List (ℕ × ℚ))) (qmap : List (String × ℚ)) (d : ℕ) :
    d ∈ ((dailyTotals index series qmap).map Prod.fst) ↔
      ∃ tq ∈ qmap, ∃ s, dictGet tq.1 series = some s ∧
        d ∈ index ∧ (ffillAt s d).isSome := by
  have h := mem_keys_dailyTotals_fold index series qmap [] d
  simpa [dailyTotals] using h

theorem nodup_keys_dailyTotals (index : List ℕ)
    (series : List (String × List (ℕ × ℚ))) (qmap : List (String × ℚ)) :
    ((dailyTotals index series qmap).map Prod.fst).Nodup := by
  suffices h : ∀ m : List (ℕ × ℚ), (m.map Prod.fst).Nodup →
      ((qmap.foldl
        (fun m tq =>
          match dictGet tq.1 series with
          | some s => processTicker m tq.2 s index
          | none => m) m).map Prod.fst).Nodup by
    exact h [] (by simp)
  intro m hm
  induction qmap generalizing m with
  | nil => exact hm
  | cons tq rest ih =>
      rw [List.foldl_cons]
      apply ih
      cases hg : dictGet tq.1 series
      · exact hm
      · exact nodup_keys_processTicker _ _ index m hm

theorem nodup_unionDates (series : List (String × List (ℕ × ℚ))) :
    (unionDates series).Nodup :=
  ((List.mergeSort_perm _ _).symm).nodup (List.nodup_dedup _)

theorem mem_unionDates (series : List (String × List (ℕ × ℚ))) (d : ℕ) :
    d ∈ unionDates series ↔ ∃ ts ∈ series, d ∈ ts.2.map Prod.fst := by
  unfold unionDates
  rw [(List.mergeSort_perm _ _).mem_iff, List.mem_dedup, List.mem_flatten]
  constructor
  · rintro ⟨l, hl, hd⟩
    obtain ⟨ts, hts, rfl⟩ := List.mem_map.mp hl
    exact ⟨ts, hts, hd⟩
  · rintro ⟨ts, hts, hd⟩
    exact ⟨ts.2.map Prod.fst, List.mem_map.mpr ⟨ts, hts, rfl⟩, hd⟩

theorem pairwise_lt_mergeSort_nat (l : List ℕ) (hl : l.Nodup) :
    (l.mergeSort (fun a b => a ≤ b)).Pairwise (fun a b => a < b) := by
  have htrans : ∀ a b c : ℕ, (decide (a ≤ b)) = true → (decide (b ≤ c)) = true →
      (decide (a ≤ c)) = true := by
    intro a b c hab hbc
    exact decide_eq_true (Nat.le_trans (of_decide_eq_true hab) (of_decide_eq_true hbc))
  have htotal : ∀ a b : ℕ, ((decide (a ≤ b)) || (decide (b ≤ a))) = true := by
    intro a b
    rcases Nat.le_total a b with hle | hle
    · exact Bool.or_eq_true_iff.mpr (Or.inl (decide_eq_true hle))
    · exact Bool.or_eq_true_iff.mpr (Or.inr (decide_eq_true hle))
  have hsorted := @List.sorted_mergeSort ℕ (fun a b => decide (a ≤ b)) htrans htotal l
  have hnd : (l.mergeSort (fun a b => a ≤ b)).Nodup :=
    ((List.mergeSort_perm l _).symm).nodup hl
  refine (hsorted.and hnd).imp ?_
  intro a b hab
  exact lt_of_le_of_ne (of_decide_eq_true hab.1) hab.2

theorem getHistoricalData_some_parts (tickers : List String) (hs : List Holding)
    (series : List (String × List (ℕ × ℚ))) (chart : ChartData)
    (hres : getHistoricalData tickers hs series = some chart) :
    chart.dates = ((dailyTotals (unionDates series) series (dictOfQ hs)).map
      Prod.fst).mergeSort (fun a b => a ≤ b) ∧
    chart.values = chart.dates.map
      (fun d => dval (dailyTotals (unionDates series) series (dictOfQ hs)) d) ∧
    chart.gains = chart.values.map
      (fun v => v - (hs.map Holding.cost_basis).sum) := by
  simp only [getHistoricalData] at hres
  split_ifs at hres with h1 h2 h3
  obtain rfl := Option.some.inj hres
  exact ⟨rfl, rfl, rfl⟩

theorem pairwise_lt_unionDates (series : List (String × List (ℕ × ℚ))) :
    (unionDates series).Pairwise (fun a b => a < b) :=
  pairwise_lt_mergeSort_nat _ (List.nodup_dedup _)

theorem dictOfQ_append (hs : List Holding) (h : Holding) :
    dictOfQ (hs ++ [h]) = dictInsert h.ticker h.quantity (dictOfQ hs) := by
  unfold dictOfQ
  rw [List.foldl_append]
  rfl

theorem dictGet_dictOfQ (hs : List Holding) (t : String) :
    dictGet t (dictOfQ hs) =
      ((hs.filter (fun h => h.ticker = t)).getLast?).map Holding.quantity := by
  induction hs using List.reverseRecOn with
  | nil => simp [dictOfQ, dictGet]
  | append_singleton hs h ih =>
      rw [dictOfQ_append, dictGet_dictInsert, List.filter_append]
      by_cases ht : h.ticker = t
      · simp [ht, List.getLast?_concat]
      · simp [ht, ih]

theorem mem_keys_dictOfQ (hs : List Holding) (t : String) :
    t ∈ (dictOfQ hs).map Prod.fst ↔ ∃ h ∈ hs, h.ticker = t := by
  rw [← dictGet_isSome_iff, dictGet_dictOfQ]
  have hmapsome : ∀ (o : Option Holding), (o.map Holding.quantity).isSome = o.isSome := by
    intro o
    cases o <;> rfl
  rw [hmapsome, List.getLast?_isSome]
  constructor
  · intro hne
    rcases List.exists_mem_of_ne_nil _ hne with ⟨h, hh⟩
    have := List.mem_filter.mp hh
    exact ⟨h, this.1, of_decide_eq_true this.2⟩
  · rintro ⟨h, hh, hht⟩
    exact List.ne_nil_of_mem (List.mem_filter.mpr ⟨hh, decide_eq_true hht⟩)

theorem processTicker_nil_series (m : List (ℕ × ℚ)) (q : ℚ) (index : List ℕ) :
    processTicker m q [] index = m := by
  induction index generalizing m with
  | nil => rfl
  | cons d rest ih =>
      have hstep : processTicker m q [] (d :: rest) = processTicker m q [] rest := rfl
      rw [hstep, ih]

theorem dailyTotals_eq_nil (index : List ℕ) (series : List (String × List (ℕ × ℚ)))
    (qmap : List (String × ℚ))
    (hq : ∀ tq ∈ qmap, ∀ s, dictGet tq.1 series = some s → s = []) :
    dailyTotals index series qmap = [] := by
  suffices h : ∀ (l : List (String × ℚ)),
      (∀ tq ∈ l, ∀ s, dictGet tq.1 series = some s → s = []) →
      ∀ m : List (ℕ × ℚ), l.foldl
        (fun m tq =>
          match dictGet tq.1 series with
          | some s => processTicker m tq.2 s index
          | none => m) m = m by
    exact h qmap hq []
  intro l hl
  induction l with
  | nil => intro m; rfl
  | cons tq rest ih =>
      intro m
      rw [List.foldl_cons]
      have hrest : ∀ tq ∈ rest, ∀ s, dictGet tq.1 series = some s → s = [] :=
        fun tq htq => hl tq (List.mem_cons_of_mem _ htq)
      cases hg : dictGet tq.1 series with
      | none =>
          exact ih hrest m
      | some s =>
          have hs0 : s = [] := hl tq (List.mem_cons_self tq rest) s hg
          subst hs0
          have : (match (some ([] : List (ℕ × ℚ))) with
              | some s => processTicker m tq.2 s index
              | none => m) = m := processTicker_nil_series m tq.2 index
          rw [this]
          exact ih hrest m

/-- C7: if the holdings list is empty, the historical feed has no dates
at all, or no held ticker has any historical data, the aggregator
returns the explicit absent result None (app.py lines 71, 76 and 101),
not an empty-but-present series; the modelled function is total, so it
never raises to its caller. -/
theorem c7_empty_history_none (tickers : List String) (hs : List Holding)
    (series : List (String × List (ℕ × ℚ)))
    (hcond : hs = [] ∨ (∀ ts ∈ series, ts.2 = []) ∨
             (∀ h ∈ hs, ∀ s, dictGet h.ticker series = some s → s = [])) :
    getHistoricalData tickers hs series = none := by
  by_cases h1 : tickers = [] ∨ hs = []
  · simp [getHistoricalData, h1]
  · rcases hcond with hemp | hflat | hnodata
    · exact absurd (Or.inr hemp) h1
    · have hu : unionDates series = [] := by
        unfold unionDates
        have hfl : (series.map (fun ts => ts.2.map Prod.fst)).flatten = [] := by
          rw [List.flatten_eq_nil_iff]
          intro l hl
          obtain ⟨ts, hts, rfl⟩ := List.mem_map.mp hl
          rw [hflat ts hts]
          rfl
        rw [hfl, List.dedup_nil]
        exact List.mergeSort_nil
      simp [getHistoricalData, h1, hu]
    · have hdaily : dailyTotals (unionDates series) series (dictOfQ hs) = [] := by
        apply dailyTotals_eq_nil
        intro tq htq s hg
        have hk : tq.1 ∈ (dictOfQ hs).map Prod.fst :=
          List.mem_map.mpr ⟨tq, htq, rfl⟩
        obtain ⟨h, hh, hht⟩ := (mem_keys_dictOfQ hs tq.1).mp hk
        exact hnodata h hh s (by rw [hht]; exact hg)
      by_cases hu : unionDates series = []
      · simp [getHistoricalData, h1, hu]
      · simp [getHistoricalData, h1, hu, hdaily]

/-- Witness for C7: empty holdings with an empty feed give None. -/
theorem c7_empty_history_none_witness :
    (([] : List Holding) = [] ∨
     (∀ ts ∈ ([] : List (String × List (ℕ × ℚ))), ts.2 = []) ∨
     (∀ h ∈ ([] : List Holding), ∀ s,
        dictGet h.ticker ([] : List (String × List (ℕ × ℚ))) = some s → s = [])) ∧
    getHistoricalData ["XYZ"] [] [] = none :=
  ⟨Or.inl rfl, c7_empty_history_none ["XYZ"] [] [] (Or.inl rfl)⟩

/-- C5: whenever the historical aggregator emits a chart, the gain at
every emitted date equals the value at that date minus the constant
current total cost basis (summed once over all holdings, app.py lines
92 and 104), and the emitted dates are strictly ascending (line 103). -/
theorem c5_gain_baseline_and_sorted (tickers : List String) (hs : List Holding)
    (series : List (String × List (ℕ × ℚ))) (chart : ChartData)
    (hres : getHistoricalData tickers hs series = some chart) :
    chart.gains = chart.values.map (fun v => v - (hs.map Holding.cost_basis).sum) ∧
    chart.dates.Pairwise (fun a b => a < b) ∧
    chart.values.length = chart.dates.length ∧
    chart.gains.length = chart.dates.length := by
  obtain ⟨hdates, hvalues, hgains⟩ :=
    getHistoricalData_some_parts tickers hs series chart hres
  refine ⟨hgains, ?_, ?_, ?_⟩
  · rw [hdates]
    exact pairwise_lt_mergeSort_nat _ (nodup_keys_dailyTotals _ _ _)
  · rw [hvalues, List.length_map]
  · rw [hgains, hvalues, List.length_map, List.length_map]

theorem mergeSort_nat_eval (l l2 : List ℕ) (hperm : l.Perm l2)
    (hsort : l2.Pairwise (fun a b => a ≤ b)) :
    l.mergeSort (fun a b => a ≤ b) = l2 := by
  refine List.eq_of_perm_of_sorted ((List.mergeSort_perm l _).trans hperm) ?_ hsort
  have htrans : ∀ a b c : ℕ, (decide (a ≤ b)) = true → (decide (b ≤ c)) = true →
      (decide (a ≤ c)) = true := by
    intro a b c hab hbc
    exact decide_eq_true (Nat.le_trans (of_decide_eq_true hab) (of_decide_eq_true hbc))
  have htotal : ∀ a b : ℕ, ((decide (a ≤ b)) || (decide (b ≤ a))) = true := by
    intro a b
    rcases Nat.le_total a b with hle | hle
    · exact Bool.or_eq_true_iff.mpr (Or.inl (decide_eq_true hle))
    · exact Bool.or_eq_true_iff.mpr (Or.inr (decide_eq_true hle))
  exact (@List.sorted_mergeSort ℕ (fun a b => decide (a ≤ b)) htrans htotal l).imp
    (fun hab => of_decide_eq_true hab)

theorem histExample_eval :
    getHistoricalData ["A", "B"] histHoldings histSeries =
      some ⟨[1, 2], [25, 29], [15, 19]⟩ := by
  have hAB : ("A" : String) ≠ "B" := by decide
  have hBA : ("B" : String) ≠ "A" := by decide
  have hms1 : (([2, 1] : List ℕ).mergeSort fun a b => a ≤ b) = [1, 2] :=
    mergeSort_nat_eval _ _ (by decide) (by decide)
  have hms2 : (([1, 2] : List ℕ).mergeSort fun a b => a ≤ b) = [1, 2] :=
    mergeSort_nat_eval _ _ (by decide) (by decide)
  norm_num [getHistoricalData, unionDates, histHoldings, histSeries, dictOfQ, dictInsert,
    dictGet, dailyTotals, processTicker, ffillAt, addToDaily, dval, hAB, hBA, hms1, hms2,
    List.dedup_cons_of_mem, List.dedup_cons_of_not_mem]
  refine ⟨⟨by simp, by simp⟩, by simp, fun h => absurd h (by simp)⟩

theorem dupExample_eval :
    getHistoricalData ["A"] dupHoldings dupSeries = some ⟨[1], [15], [-5]⟩ := by
  have hms : (([1] : List ℕ).mergeSort fun a b => a ≤ b) = [1] :=
    mergeSort_nat_eval _ _ (by decide) (by decide)
  norm_num [getHistoricalData, unionDates, dupHoldings, dupSeries, dictOfQ, dictInsert,
    dictGet, dailyTotals, processTicker, ffillAt, addToDaily, dval, hms,
    List.dedup_cons_of_mem, List.dedup_cons_of_not_mem]
  exact fun h => absurd h (by simp)

/-- Witness for C5 at the two-ticker example: chart ⟨[1,2], [25,29],
[15,19]⟩ with constant cost basis 10. -/
theorem c5_gain_baseline_and_sorted_witness :
    getHistoricalData ["A", "B"] histHoldings histSeries =
      some ⟨[1, 2], [25, 29], [15, 19]⟩ ∧
    ((⟨[1, 2], [25, 29], [15, 19]⟩ : ChartData).gains =
      (⟨[1, 2], [25, 29], [15, 19]⟩ : ChartData).values.map
        (fun v => v - (histHoldings.map Holding.cost_basis).sum) ∧
     (⟨[1, 2], [25, 29], [15, 19]⟩ : ChartData).dates.Pairwise (fun a b => a < b) ∧
     (⟨[1, 2], [25, 29], [15, 19]⟩ : ChartData).values.length =
       (⟨[1, 2], [25, 29], [15, 19]⟩ : ChartData).dates.length ∧
     (⟨[1, 2], [25, 29], [15, 19]⟩ : ChartData).gains.length =
       (⟨[1, 2], [25, 29], [15, 19]⟩ : ChartData).dates.length) :=
  ⟨histExample_eval,
   c5_gain_baseline_and_sorted ["A", "B"] histHoldings histSeries _ histExample_eval⟩

/-- C6: whenever the historical aggregator emits a chart (with the
repository call pattern: feed keys unique and every key a held ticker),
the emitted dates are exactly the union of all series dates, and the
value at every emitted date is the sum over held tickers present in the
feed of quantity times forward-filled close, tickers absent from the
feed excluded (app.py lines 90-100). -/
theorem c6_historical_value_sum (tickers : List String) (hs : List Holding)
    (series : List (String × List (ℕ × ℚ))) (chart : ChartData)
    (hres : getHistoricalData tickers hs series = some chart)
    (hkeys : (series.map Prod.fst).Nodup)
    (hheld : ∀ ts ∈ series, ∃ h ∈ hs, h.ticker = ts.1) :
    chart.dates = unionDates series ∧
    chart.values = chart.dates.map (histValueAt hs series) := by
  obtain ⟨hdates, hvalues, hgains⟩ :=
    getHistoricalData_some_parts tickers hs series chart hres
  have hdnodup := nodup_keys_dailyTotals (unionDates series) series (dictOfQ hs)
  have hmem : ∀ d, d ∈ (dailyTotals (unionDates series) series (dictOfQ hs)).map
      Prod.fst ↔ d ∈ unionDates series := by
    intro d
    rw [mem_keys_dailyTotals]
    constructor
    · rintro ⟨tq, _, s, _, hd, _⟩
      exact hd
    · intro hd
      obtain ⟨ts, hts, hdts⟩ := (mem_unionDates series d).mp hd
      obtain ⟨h, hh, hht⟩ := hheld ts hts
      have hget : dictGet ts.1 series = some ts.2 :=
        dictGet_mem_of_nodup ts.1 ts.2 series hkeys (by simpa using hts)
      have hqk : ts.1 ∈ (dictOfQ hs).map Prod.fst :=
        (mem_keys_dictOfQ hs ts.1).mpr ⟨h, hh, hht⟩
      obtain ⟨tq, htq, htq1⟩ := List.mem_map.mp hqk
      refine ⟨tq, htq, ts.2, by rw [htq1]; exact hget, hd, ?_⟩
      obtain ⟨p, hp, hp1⟩ := List.mem_map.mp hdts
      have hpf : p ∈ ts.2.filter (fun pr => pr.1 ≤ d) :=
        List.mem_filter.mpr ⟨hp, decide_eq_true (le_of_eq hp1)⟩
      have hne : ts.2.filter (fun pr => pr.1 ≤ d) ≠ [] := List.ne_nil_of_mem hpf
      have hlsome : (ts.2.filter (fun pr => pr.1 ≤ d)).getLast?.isSome = true :=
        (List.getLast?_isSome).mpr hne
      unfold ffillAt
      cases hlast : (ts.2.filter (fun pr => pr.1 ≤ d)).getLast? with
      | none => rw [hlast] at hlsome; simp at hlsome
      | some pr => simp [hlast]
  have h1 : chart.dates = unionDates series := by
    rw [hdates]
    have hnd1 : (((dailyTotals (unionDates series) series (dictOfQ hs)).map
        Prod.fst).mergeSort (fun a b => a ≤ b)).Nodup :=
      ((List.mergeSort_perm _ _).symm).nodup hdnodup
    have hperm2 : (((dailyTotals (unionDates series) series (dictOfQ hs)).map
        Prod.fst).mergeSort (fun a b => a ≤ b)).Perm (unionDates series) := by
      refine (List.perm_ext_iff_of_nodup hnd1 (nodup_unionDates series)).mpr ?_
      intro a
      rw [(List.mergeSort_perm _ _).mem_iff]
      exact hmem a
    haveI : IsAntisymm ℕ (fun a b => a < b) :=
      ⟨fun a b hab hba => absurd hba (Nat.lt_asymm hab)⟩
    exact List.eq_of_perm_of_sorted hperm2
      (pairwise_lt_mergeSort_nat _ hdnodup) (pairwise_lt_unionDates series)
  refine ⟨h1, ?_⟩
  rw [hvalues]
  apply List.map_congr_left
  intro d hd
  have hdu : d ∈ unionDates series := by
    rw [← h1]
    exact hd
  show dval (dailyTotals (unionDates series) series (dictOfQ hs)) d =
    histValueAt hs series d
  rw [dval_dailyTotals (unionDates series) series (dictOfQ hs) d
    (nodup_unionDates series) hdu]
  rfl

/-- Witness for C6 at the two-ticker forward-fill example of the spec:
at the second date the value is 2 times 12 plus 1 times the
forward-filled 5, that is 29. -/
theorem c6_historical_value_sum_witness :
    getHistoricalData ["A", "B"] histHoldings histSeries =
      some ⟨[1, 2], [25, 29], [15, 19]⟩ ∧
    (histSeries.map Prod.fst).Nodup ∧
    (∀ ts ∈ histSeries, ∃ h ∈ histHoldings, h.ticker = ts.1) ∧
    ((⟨[1, 2], [25, 29], [15, 19]⟩ : ChartData).dates = unionDates histSeries ∧
     (⟨[1, 2], [25, 29], [15, 19]⟩ : ChartData).values =
       (⟨[1, 2], [25, 29], [15, 19]⟩ : ChartData).dates.map
         (histValueAt histHoldings histSeries)) :=
  ⟨histExample_eval, by decide, by decide,
   c6_historical_value_sum ["A", "B"] histHoldings histSeries _ histExample_eval
     (by decide) (by decide)⟩

/-- C10: the per-ticker quantity map of the historical aggregator keeps
only the last row for a duplicated ticker (pandas to_dict of app.py
line 91), while the valuation pass sums every row separately; for the
concrete duplicate input (rows of quantities 2 and 3, close and current
price both 5) the latest historical total is 3 times 5 = 15 while the
valuation total is 2 times 5 + 3 times 5 = 25, so the two need not
agree even with identical prices. -/
theorem c10_duplicate_ticker_divergence :
    (∀ (hs : List Holding) (t : String),
        dictGet t (dictOfQ hs) =
          ((hs.filter (fun h => h.ticker = t)).getLast?).map Holding.quantity) ∧
    dictGet "A" (dictOfQ dupHoldings) = some 3 ∧
    getHistoricalData ["A"] dupHoldings dupSeries = some ⟨[1], [15], [-5]⟩ ∧
    (runValuation dupQuotes dupHoldings).1.total_value = 25 ∧
    ((15 : ℚ) ≠ 25) := by
  refine ⟨dictGet_dictOfQ, ?_, dupExample_eval, ?_, by norm_num⟩
  · simp [dupHoldings, dictOfQ, dictInsert, dictGet]
  · rw [runValuation_total_value]
    norm_num [dupHoldings, emitRecord, dupQuotes]

/-! Helper lemmas about the display-currency heuristic. -/

theorem foldl_max_mem (f : String → ℕ) (xs : List String) :
    ∀ b : String, xs.foldl (fun best c => if f best < f c then c else best) b ∈ b :: xs := by
  induction xs with
  | nil =>
      intro b
      simp
  | cons x tl ih =>
      intro b
      rw [List.foldl_cons]
      rcases List.mem_cons.mp (ih (if f b < f x then x else b)) with heq | hmem
      · rw [heq]
        by_cases hfx : f b < f x
        · rw [if_pos hfx]
          simp
        · rw [if_neg hfx]
          simp
      · exact List.mem_cons_of_mem _ (List.mem_cons_of_mem _ hmem)

theorem foldl_max_ge (f : String → ℕ) (xs : List String) :
    ∀ b : String, ∀ c ∈ b :: xs,
      f c ≤ f (xs.foldl (fun best c => if f best < f c then c else best) b) := by
  induction xs with
  | nil =>
      intro b c hc
      rcases List.mem_cons.mp hc with rfl | h
      · simp
      · simp at h
  | cons x tl ih =>
      intro b c hc
      rw [List.foldl_cons]
      have hb2 : f b ≤ f (if f b < f x then x else b) := by
        by_cases hfx : f b < f x
        · rw [if_pos hfx]
          exact Nat.le_of_lt hfx
        · rw [if_neg hfx]
      have hx2 : f x ≤ f (if f b < f x then x else b) := by
        by_cases hfx : f b < f x
        · rw [if_pos hfx]
        · rw [if_neg hfx]
          exact Nat.le_of_not_lt hfx
      rcases List.mem_cons.mp hc with rfl | hc2
      · exact le_trans hb2 (ih _ _ (List.mem_cons_self _ _))
      · rcases List.mem_cons.mp hc2 with rfl | hc3
        · exact le_trans hx2 (ih _ _ (List.mem_cons_self _ _))
        · exact ih _ _ (List.mem_cons_of_mem _ hc3)

theorem pyMaxBy_mem (f : String → ℕ) (d : String) (xs : List String)
    (hne : xs ≠ []) : pyMaxBy f d xs ∈ xs := by
  cases xs with
  | nil => exact absurd rfl hne
  | cons x tl => exact foldl_max_mem f tl x

theorem pyMaxBy_ge (f : String → ℕ) (d : String) (xs : List String) :
    ∀ c ∈ xs, f c ≤ f (pyMaxBy f d xs) := by
  intro c hc
  cases xs with
  | nil => simp at hc
  | cons x tl => exact foldl_max_ge f tl x c hc

/-- Counterexample to C8 as stated.  Two records with tied currencies
EUR (encountered first) and GBP: with the deduplicated-set iteration
order ["GBP", "EUR"] - a legitimate order of the CPython set
`set(valid_currencies)` of app.py line 165, whose iteration order is
hash-dependent, not encounter order - Python max picks GBP, not the
first-encountered EUR. -/
theorem c8_counterexample :
    validCurrencies tieDetails = ["EUR", "GBP"] ∧
    (["GBP", "EUR"] : List String).Perm (validCurrencies tieDetails).dedup ∧
    (validCurrencies tieDetails).count "EUR" =
      (validCurrencies tieDetails).count "GBP" ∧
    primaryCurrency tieDetails ["GBP", "EUR"] = "GBP" ∧
    ("GBP" : String) ≠ "EUR" := by
  refine ⟨by decide, by decide, by decide, by decide, by decide⟩

/-- C8 as amended: the display currency is the most frequent currency
among records with known currency and positive current value, computed
by Python max over the deduplicated currency set; the result always has
maximal frequency, and when one currency strictly dominates it is
chosen regardless of the set order, but a tie is broken by the
iteration order of the set (implementation-dependent), not necessarily
by first encounter; when no record qualifies, the first record with a
known currency is used, else USD (app.py lines 161-168). -/
theorem c8_amended_currency_heuristic (details : List Record) (so : List String)
    (hso : so.Perm (validCurrencies details).dedup) :
    (validCurrencies details ≠ [] →
       primaryCurrency details so ∈ validCurrencies details ∧
       (∀ c ∈ validCurrencies details,
         (validCurrencies details).count c ≤
           (validCurrencies details).count (primaryCurrency details so)) ∧
       (∀ c ∈ validCurrencies details,
         (∀ c2 ∈ validCurrencies details, c2 ≠ c →
            (validCurrencies details).count c2 < (validCurrencies details).count c) →
         primaryCurrency details so = c)) ∧
    (validCurrencies details = [] →
       (∀ p, details.find? (fun r => r.currency ≠ "N/A") = some p →
          primaryCurrency details so = p.currency) ∧
       (details.find? (fun r => r.currency ≠ "N/A") = none →
          primaryCurrency details so = "USD")) := by
  by_cases hdet : details = []
  · subst hdet
    have hval : validCurrencies ([] : List Record) = [] := rfl
    refine ⟨fun hne => absurd hval hne, fun _ => ⟨?_, ?_⟩⟩
    · intro p hp
      simp [List.find?] at hp
    · intro _
      simp [primaryCurrency]
  · constructor
    · intro hvne
      have hpc : primaryCurrency details so =
          pyMaxBy (fun c => (validCurrencies details).count c) "USD" so := by
        simp only [primaryCurrency, if_neg hdet]
        rw [if_pos hvne]
      have hsone : so ≠ [] := by
        intro hnil
        rw [hnil] at hso
        have := hso.symm.eq_nil
        rw [List.dedup_eq_nil] at this
        exact hvne this
      have hrmem : primaryCurrency details so ∈ validCurrencies details := by
        rw [hpc]
        have h1 := pyMaxBy_mem (fun c => (validCurrencies details).count c) "USD" so hsone
        have h2 := hso.mem_iff.mp h1
        exact List.mem_dedup.mp h2
      refine ⟨hrmem, ?_, ?_⟩
      · intro c hc
        rw [hpc]
        exact pyMaxBy_ge (fun c => (validCurrencies details).count c) "USD" so c
          (hso.mem_iff.mpr (List.mem_dedup.mpr hc))
      · intro c hc hdom
        by_contra hne
        have h1 := hdom (primaryCurrency details so) hrmem hne
        have h2 : (validCurrencies details).count c ≤
            (validCurrencies details).count (primaryCurrency details so) := by
          rw [hpc]
          exact pyMaxBy_ge (fun c => (validCurrencies details).count c) "USD" so c
            (hso.mem_iff.mpr (List.mem_dedup.mpr hc))
        exact absurd (lt_of_le_of_lt h2 h1) (lt_irrefl _)
    · intro hval
      constructor
      · intro p hp
        simp only [primaryCurrency, if_neg hdet]
        rw [if_neg (by simpa using hval), hp]
      · intro hp
        simp only [primaryCurrency, if_neg hdet]
        rw [if_neg (by simpa using hval), hp]

/-- Witness for C8 as amended, at the tied two-currency input with set
order ["GBP", "EUR"]. -/
theorem c8_amended_currency_heuristic_witness :
    (["GBP", "EUR"] : List String).Perm (validCurrencies tieDetails).dedup ∧
    ((validCurrencies tieDetails ≠ [] →
       primaryCurrency tieDetails ["GBP", "EUR"] ∈ validCurrencies tieDetails ∧
       (∀ c ∈ validCurrencies tieDetails,
         (validCurrencies tieDetails).count c ≤
           (validCurrencies tieDetails).count
             (primaryCurrency tieDetails ["GBP", "EUR"])) ∧
       (∀ c ∈ validCurrencies tieDetails,
         (∀ c2 ∈ validCurrencies tieDetails, c2 ≠ c →
            (validCurrencies tieDetails).count c2 <
              (validCurrencies tieDetails).count c) →
         primaryCurrency tieDetails ["GBP", "EUR"] = c)) ∧
     (validCurrencies tieDetails = [] →
       (∀ p, tieDetails.find? (fun r => r.currency ≠ "N/A") = some p →
          primaryCurrency tieDetails ["GBP", "EUR"] = p.currency) ∧
       (tieDetails.find? (fun r => r.currency ≠ "N/A") = none →
          primaryCurrency tieDetails ["GBP", "EUR"] = "USD"))) :=
  ⟨by decide, c8_amended_currency_heuristic tieDetails ["GBP", "EUR"] (by decide)⟩

end Bagholder
